import Mathlib

/-!
Verification of the ddgs post-retrieval result ranker.

The development shallowly embeds the ranking core of `ddgs/similarity.py`
(`SimpleFilterRanker`: `_extract_tokens`, `_has_any_token`, `rank`) and the
Naver engine post-processing of `ddgs/engines/naver.py`
(`Naver.post_extract_results`).

Modelling conventions:
* Python `dict[str, str]` result records become the structure `Doc` with
  optional fields (`none` = key absent) plus a pass-through list `extra`
  for unknown fields.
* Numeric engine priorities are modelled as integers (`Prio.int`); a
  present-but-null priority value is `Prio.null`.  Python's `sorted` raises
  `TypeError` as soon as `None` must be compared with a number, which
  happens exactly when the key list has length at least two and contains
  `None` (keys are distinct, and every element of a list of length ≥ 2 is
  compared at least once); `rank` therefore returns `Except.error ()` in
  precisely that case.
* String operations (`str.lower`, `re.split(r"\W+", ...)`, substring `in`,
  `str.split()`) are modelled on the ASCII fragment, which is the fragment
  exercised by the code and its tests.
-/

namespace DDGS

/-- Python `needle in hay` for strings: `needle` occurs contiguously in the
character list `hay`. -/
def listContains (needle : List Char) : List Char → Bool
  | [] => needle.isEmpty
  | c :: cs => needle.isPrefixOf (c :: cs) || listContains needle cs

/-- Python `needle in hay` on `String`s. -/
def strContains (hay needle : String) : Bool :=
  listContains needle.data hay.data

/-- A regex word character (`\w`), ASCII fragment: letters, digits, `_`. -/
def wordChar (c : Char) : Bool :=
  c.isAlphanum || c == '_'

/-- Python `str.lower()` (ASCII fragment), applied characterwise. -/
def pyLower (s : String) : String :=
  String.mk (s.data.map Char.toLower)

/-- Python `re.split(r"\W+", s)`: split on maximal runs of non-word
characters.  A leading (resp. trailing) delimiter run produces an empty
token at the front (resp. back), and splitting the empty string yields
`[""]`, exactly as in Python. -/
def reSplitW : List Char → List (List Char)
  | [] => [[]]
  | c :: cs =>
    if wordChar c then
      match reSplitW cs with
      | g :: gs => (c :: g) :: gs
      | [] => [[c]]
    else
      match cs with
      | [] => [] :: reSplitW cs
      | c2 :: _ => if wordChar c2 then [] :: reSplitW cs else reSplitW cs

/-- The raw token list of a query: lower-case, then split on non-word runs
(`self._splitter.split(query.lower())`). -/
def tokensOf (query : String) : List String :=
  (reSplitW (pyLower query).data).map String.mk

/-- `SimpleFilterRanker._extract_tokens`: keep the tokens of length at least
`min_token_length`, as a set (modelled as a deduplicated list). -/
def extract_tokens (min_token_length : Int) (query : String) : List String :=
  ((tokensOf query).filter (fun t => decide (min_token_length ≤ (t.length : Int)))).dedup

/-- `SimpleFilterRanker._has_any_token`: is some token a substring of the
lower-cased text? -/
def has_any_token (text : String) (tokens : List String) : Bool :=
  tokens.any (fun tok => strContains (pyLower text) tok)

/-- A value found under the `engine_priority` key: a number, or Python
`None`. -/
inductive Prio where
  | int : Int → Prio
  | null : Prio
deriving DecidableEq, Repr

/-- Python `<` on priority values; comparing `None` with a number raises,
which never happens on the paths where this relation is consulted. -/
def prioLt : Prio → Prio → Bool
  | .int a, .int b => decide (a < b)
  | _, _ => false

/-- The numeric payload of a priority, if any. -/
def Prio.toIntOpt : Prio → Option Int
  | .int n => some n
  | .null => none

/-- One result record (a Python dict).  `none` means the key is absent;
`extra` carries unknown fields, which must pass through unchanged. -/
structure Doc where
  title? : Option String
  body? : Option String
  description? : Option String
  href? : Option String
  engine_priority? : Option Prio
  extra : List (String × String)
deriving DecidableEq, Repr

/-- `doc.get("title", "")`. -/
def docTitle (d : Doc) : String := d.title?.getD ""

/-- `doc.get("body", doc.get("description", ""))`: the `description` field is
consulted only when the `body` key is absent. -/
def docBody (d : Doc) : String :=
  match d.body? with
  | some b => b
  | none => d.description?.getD ""

/-- `doc.get("href", "")` (computed but unused by `rank`). -/
def docHref (d : Doc) : String := d.href?.getD ""

/-- `doc.get("engine_priority", 1)`. -/
def docPrio (d : Doc) : Prio := d.engine_priority?.getD (.int 1)

/-- Negation of the Wikimedia-category exclusion:
`all(x in title for x in ["Category:", "Wikimedia"])` skips the record. -/
def survives (d : Doc) : Bool :=
  !(strContains (docTitle d) "Category:" && strContains (docTitle d) "Wikimedia")

/-- The four relevance buckets. -/
inductive Bucket where
  | both | titleOnly | bodyOnly | neither
deriving DecidableEq, Repr

/-- Position of each bucket in the fixed emission order. -/
def bucketIdx : Bucket → Nat
  | .both => 0
  | .titleOnly => 1
  | .bodyOnly => 2
  | .neither => 3

/-- The bucket a record is classified into (`hit_title` / `hit_body`). -/
def docBucket (tokens : List String) (d : Doc) : Bucket :=
  let hitTitle := has_any_token (docTitle d) tokens
  let hitBody := has_any_token (docBody d) tokens
  if hitTitle && hitBody then .both
  else if hitTitle then .titleOnly
  else if hitBody then .bodyOnly
  else .neither

/-- The four per-priority lists (`priority_groups[priority]`). -/
structure Buckets where
  both : List Doc
  title_only : List Doc
  body_only : List Doc
  neither : List Doc
deriving DecidableEq, Repr

/-- A freshly initialized priority group. -/
def Buckets.empty : Buckets := ⟨[], [], [], []⟩

/-- Append a record to the bucket it was classified into. -/
def Buckets.add (bs : Buckets) (b : Bucket) (d : Doc) : Buckets :=
  match b with
  | .both => { bs with both := bs.both ++ [d] }
  | .titleOnly => { bs with title_only := bs.title_only ++ [d] }
  | .bodyOnly => { bs with body_only := bs.body_only ++ [d] }
  | .neither => { bs with neither := bs.neither ++ [d] }

/-- Emission order of one priority group: `both, title_only, body_only,
neither`. -/
def Buckets.toList (bs : Buckets) : List Doc :=
  bs.both ++ bs.title_only ++ bs.body_only ++ bs.neither

/-- Processing one record of the `for doc in docs` loop of `rank`:
skip excluded records, create the priority group when first seen, append
the record to its bucket. -/
def step (tokens : List String) (pg : List (Prio × Buckets)) (doc : Doc) :
    List (Prio × Buckets) :=
  if survives doc then
    let p := docPrio doc
    let pg1 := if p ∈ pg.map Prod.fst then pg else pg ++ [(p, Buckets.empty)]
    pg1.map (fun e => if e.1 = p then (e.1, e.2.add (docBucket tokens doc) doc) else e)
  else pg

/-- `sorted(priority_groups.keys(), reverse=True)`.  The keys are distinct;
with at least two keys one of which is `None`, Python's sort must compare
`None` with a number and raises `TypeError`, modelled as `Except.error`. -/
def sortKeysDesc (ks : List Prio) : Except Unit (List Prio) :=
  if ks.length ≤ 1 then .ok ks
  else if Prio.null ∈ ks then .error ()
  else .ok ((((ks.filterMap Prio.toIntOpt).insertionSort (· ≤ ·)).reverse).map Prio.int)

/-- `priority_groups[priority]` during the final emission loop (the key is
always present there). -/
def bucketsFor (pg : List (Prio × Buckets)) (p : Prio) : Buckets :=
  match pg.find? (fun e => e.1 == p) with
  | some e => e.2
  | none => Buckets.empty

/-- `SimpleFilterRanker.rank`. -/
def rank (min_token_length : Int) (docs : List Doc) (query : String) :
    Except Unit (List Doc) :=
  let tokens := extract_tokens min_token_length query
  let pg := docs.foldl (step tokens) []
  match sortKeysDesc (pg.map Prod.fst) with
  | .error e => .error e
  | .ok ks => .ok ((ks.map (fun k => (bucketsFor pg k).toList)).flatten)

/-- A Naver engine result record (`TextResult`: the fields read and written
by `Naver.post_extract_results`). -/
structure TextResult where
  title : String
  href : String
  body : String
deriving DecidableEq, Repr

/-- Python `str.split()` (no argument): maximal runs of non-whitespace
characters; no empty tokens. -/
def pySplitWs : List Char → List (List Char)
  | [] => []
  | c :: cs =>
    if c.isWhitespace then pySplitWs cs
    else
      match cs with
      | [] => [[c]]
      | c2 :: _ =>
        if c2.isWhitespace then [c] :: pySplitWs cs
        else
          match pySplitWs cs with
          | g :: gs => (c :: g) :: gs
          | [] => [[c]]

/-- `" ".join(s.split())`: collapse whitespace runs to single spaces. -/
def collapseWs (s : String) : String :=
  " ".intercalate ((pySplitWs s.data).map String.mk)

/-- `Naver.post_extract_results`: the result-cleanup loop. -/
def post_extract_results (results : List TextResult) : List TextResult :=
  results.foldl
    (fun post r =>
      if r.href == "" || r.title == "" then post
      else if strContains r.href "searchad.naver.com" then post
      else if r.href.startsWith "https://search.naver.com/search.naver" then post
      else post ++ [if r.body == "" then r else { r with body := collapseWs r.body }])
    []

/-! ### The grouping-loop invariant -/

/-- The records of `l` that survive exclusion, carry priority `p` and are
classified into bucket `b`. -/
def matchesPB (tokens : List String) (p : Prio) (b : Bucket) (d : Doc) : Bool :=
  survives d && decide (docPrio d = p) && decide (docBucket tokens d = b)

/-- Filter of `matchesPB`. -/
def groupFilter (tokens : List String) (l : List Doc) (p : Prio) (b : Bucket) :
    List Doc :=
  l.filter (matchesPB tokens p b)

/-- Uniform access to the four lists of a `Buckets` value. -/
def Buckets.slot (bs : Buckets) : Bucket → List Doc
  | .both => bs.both
  | .titleOnly => bs.title_only
  | .bodyOnly => bs.body_only
  | .neither => bs.neither

theorem Buckets.toList_eq_slots (bs : Buckets) :
    bs.toList = bs.slot .both ++ bs.slot .titleOnly ++ bs.slot .bodyOnly ++ bs.slot .neither := rfl

theorem Buckets.slot_empty (b : Bucket) : Buckets.empty.slot b = [] := by
  cases b <;> rfl

theorem Buckets.slot_add (bs : Buckets) (b0 : Bucket) (d : Doc) (b : Bucket) :
    (bs.add b0 d).slot b = bs.slot b ++ (if b0 = b then [d] else []) := by
  cases b0 <;> cases b <;> simp [Buckets.add, Buckets.slot]

theorem mem_groupFilter {tokens : List String} {l : List Doc} {p : Prio} {b : Bucket}
    {d : Doc} : d ∈ groupFilter tokens l p b ↔
      d ∈ l ∧ survives d = true ∧ docPrio d = p ∧ docBucket tokens d = b := by
  simp [groupFilter, matchesPB, List.mem_filter, and_assoc]

theorem groupFilter_append_single (tokens : List String) (l : List Doc) (p : Prio)
    (b : Bucket) (d : Doc) :
    groupFilter tokens (l ++ [d]) p b =
      groupFilter tokens l p b ++ (if matchesPB tokens p b d then [d] else []) := by
  simp [groupFilter, List.filter_append, List.filter]
  by_cases h : matchesPB tokens p b d = true <;> simp [h]

/-- Invariant of the grouping loop after processing the prefix `l`:
the keys are the distinct priorities of the surviving processed records,
and each group's buckets hold exactly the corresponding filters of `l`,
in input order. -/
structure Inv (tokens : List String) (l : List Doc) (pg : List (Prio × Buckets)) :
    Prop where
  nodup : (pg.map Prod.fst).Nodup
  mem_keys : ∀ p, p ∈ pg.map Prod.fst ↔ ∃ d, d ∈ l ∧ survives d = true ∧ docPrio d = p
  buckets : ∀ e ∈ pg, ∀ b, (e.2).slot b = groupFilter tokens l e.1 b

theorem inv_nil (tokens : List String) : Inv tokens [] [] := by
  refine ⟨by simp, by simp, by simp⟩

theorem inv_step (tokens : List String) {l : List Doc} {pg : List (Prio × Buckets)}
    (h : Inv tokens l pg) (doc : Doc) :
    Inv tokens (l ++ [doc]) (step tokens pg doc) := by
  by_cases hs : survives doc = true
  · -- the record is kept
    by_cases hp : docPrio doc ∈ pg.map Prod.fst
    · -- its priority group already exists: only that entry is updated
      have hstep : step tokens pg doc =
          pg.map (fun e => if e.1 = docPrio doc
            then (e.1, e.2.add (docBucket tokens doc) doc) else e) := by
        simp [step, hs, hp]
      have hkeys : (step tokens pg doc).map Prod.fst = pg.map Prod.fst := by
        rw [hstep, List.map_map]
        apply List.map_congr_left
        intro e _
        by_cases he : e.1 = docPrio doc <;> simp [he]
      refine ⟨by rw [hkeys]; exact h.nodup, ?_, ?_⟩
      · intro p
        rw [hkeys]
        constructor
        · intro hmem
          obtain ⟨d, hd, hd1, hd2⟩ := (h.mem_keys p).1 hmem
          exact ⟨d, by simp [hd], hd1, hd2⟩
        · rintro ⟨d, hd, hd1, hd2⟩
          rcases List.mem_append.1 hd with hd' | hd'
          · exact (h.mem_keys p).2 ⟨d, hd', hd1, hd2⟩
          · have : d = doc := by simpa using hd'
            subst this
            exact hd2 ▸ hp
      · intro e' he' b
        rw [hstep] at he'
        obtain ⟨e, he, hupd⟩ := List.mem_map.1 he'
        by_cases heq : e.1 = docPrio doc
        · -- the updated entry
          rw [if_pos heq] at hupd
          subst hupd
          rw [groupFilter_append_single]
          have hslots := h.buckets e he b
          simp only [Buckets.slot_add, hslots, heq]
          congr 1
          by_cases hb : docBucket tokens doc = b
          · simp [matchesPB, hs, hb, heq]
          · simp [matchesPB, hb]
        · -- untouched entries
          rw [if_neg heq] at hupd
          subst hupd
          rw [groupFilter_append_single]
          have : matchesPB tokens e.1 b doc = false := by
            simp [matchesPB, heq]
            intro h1 h2
            exact absurd h2.symm heq
          simp [this, h.buckets e he b]
    · -- a fresh priority group is appended
      have hid : ∀ e ∈ pg, (if e.1 = docPrio doc
          then (e.1, e.2.add (docBucket tokens doc) doc) else e) = e := by
        intro e he
        have : e.1 ≠ docPrio doc := by
          intro hcon
          exact hp (hcon ▸ List.mem_map_of_mem Prod.fst he)
        simp [this]
      have hstep : step tokens pg doc =
          pg ++ [(docPrio doc, Buckets.empty.add (docBucket tokens doc) doc)] := by
        simp only [step, hs, if_true, if_neg hp, List.map_append, List.map]
        rw [List.map_congr_left hid]
        simp
      have hkeys : (step tokens pg doc).map Prod.fst
          = pg.map Prod.fst ++ [docPrio doc] := by
        rw [hstep]; simp
      refine ⟨?_, ?_, ?_⟩
      · rw [hkeys]
        simp only [List.nodup_append]
        exact ⟨h.nodup, List.nodup_singleton _, by simpa using hp⟩
      · intro p
        rw [hkeys]
        simp only [List.mem_append, List.mem_singleton]
        constructor
        · rintro (hmem | rfl)
          · obtain ⟨d, hd, hd1, hd2⟩ := (h.mem_keys p).1 hmem
            exact ⟨d, by simp [hd], hd1, hd2⟩
          · exact ⟨doc, by simp, hs, rfl⟩
        · rintro ⟨d, hd, hd1, hd2⟩
          rcases hd with hd' | rfl
          · exact Or.inl ((h.mem_keys p).2 ⟨d, hd', hd1, hd2⟩)
          · exact Or.inr hd2.symm
      · intro e' he' b
        rw [hstep] at he'
        rcases List.mem_append.1 he' with he | he
        · -- untouched old entries
          rw [groupFilter_append_single]
          have hne : e'.1 ≠ docPrio doc := by
            intro hcon
            exact hp (hcon ▸ List.mem_map_of_mem Prod.fst he)
          have : matchesPB tokens e'.1 b doc = false := by
            simp [matchesPB]
            intro h1 h2
            exact absurd h2.symm hne
          simp [this, h.buckets e' he b]
        · -- the new entry
          have : e' = (docPrio doc, Buckets.empty.add (docBucket tokens doc) doc) := by
            simpa using he
          subst this
          rw [groupFilter_append_single]
          have hnil : groupFilter tokens l (docPrio doc) b = [] := by
            rw [groupFilter, List.filter_eq_nil_iff]
            intro d hd hcon
            have h1 : survives d = true ∧ docPrio d = docPrio doc ∧
                docBucket tokens d = b := by
              simpa [matchesPB, and_assoc] using hcon
            exact hp ((h.mem_keys (docPrio doc)).2 ⟨d, hd, h1.1, h1.2.1⟩)
          simp only [Buckets.slot_add, Buckets.slot_empty, hnil, List.nil_append]
          by_cases hb : docBucket tokens doc = b
          · simp [matchesPB, hs, hb]
          · simp [matchesPB, hb]
  · -- the record is excluded: nothing changes
    have hs' : survives doc = false := by simpa using hs
    have hstep : step tokens pg doc = pg := by simp [step, hs']
    rw [hstep]
    refine ⟨h.nodup, ?_, ?_⟩
    · intro p
      rw [h.mem_keys p]
      constructor
      · rintro ⟨d, hd, hd1, hd2⟩
        exact ⟨d, by simp [hd], hd1, hd2⟩
      · rintro ⟨d, hd, hd1, hd2⟩
        rcases List.mem_append.1 hd with hd' | hd'
        · exact ⟨d, hd', hd1, hd2⟩
        · have : d = doc := by simpa using hd'
          subst this
          exact absurd hd1 (by simp [hs'])
    · intro e he b
      rw [groupFilter_append_single]
      have : matchesPB tokens e.1 b doc = false := by
        simp [matchesPB, hs']
      simp [this, h.buckets e he b]

theorem inv_foldl (tokens : List String) :
    ∀ (l2 l1 : List Doc) (pg : List (Prio × Buckets)), Inv tokens l1 pg →
      Inv tokens (l1 ++ l2) (l2.foldl (step tokens) pg)
  | [], l1, pg, h => by simpa using h
  | d :: t, l1, pg, h => by
    have := inv_foldl tokens t (l1 ++ [d]) (step tokens pg d) (inv_step tokens h d)
    simpa using this

theorem inv_rank (tokens : List String) (docs : List Doc) :
    Inv tokens docs (docs.foldl (step tokens) []) := by
  simpa using inv_foldl tokens docs [] [] (inv_nil tokens)

/-! ### The sorted key list and the structure of `rank`'s output -/

theorem length_le_one_cases {α : Type _} {l : List α} (h : l.length ≤ 1) :
    l = [] ∨ ∃ a, l = [a] := by
  match l with
  | [] => exact Or.inl rfl
  | [a] => exact Or.inr ⟨a, rfl⟩
  | a :: b :: t => simp at h

theorem filterMap_toIntOpt_map_int {ks : List Prio} (h : Prio.null ∉ ks) :
    (ks.filterMap Prio.toIntOpt).map Prio.int = ks := by
  induction ks with
  | nil => rfl
  | cons k t ih =>
    have hk : k ≠ Prio.null := fun e => h (e ▸ List.mem_cons_self _ _)
    have ht : Prio.null ∉ t := fun m => h (List.mem_cons_of_mem _ m)
    cases k with
    | int n => simp [List.filterMap_cons, Prio.toIntOpt, ih ht]
    | null => exact absurd rfl hk

theorem sortKeysDesc_ok {ks0 ks : List Prio} (h : sortKeysDesc ks0 = .ok ks) :
    ks.Perm ks0 ∧ ks.Pairwise (fun a b => prioLt a b = false) := by
  unfold sortKeysDesc at h
  by_cases h1 : ks0.length ≤ 1
  · rw [if_pos h1] at h
    obtain rfl : ks0 = ks := by simpa using h
    refine ⟨List.Perm.refl _, ?_⟩
    rcases length_le_one_cases h1 with rfl | ⟨a, rfl⟩ <;> simp
  · rw [if_neg h1] at h
    by_cases h2 : Prio.null ∈ ks0
    · rw [if_pos h2] at h; simp at h
    · rw [if_neg h2] at h
      obtain rfl : (((ks0.filterMap Prio.toIntOpt).insertionSort (· ≤ ·)).reverse).map
          Prio.int = ks := by simpa using h
      constructor
      · have p1 : List.Perm
            ((((ks0.filterMap Prio.toIntOpt).insertionSort (· ≤ ·)).reverse).map Prio.int)
            (((ks0.filterMap Prio.toIntOpt).insertionSort (· ≤ ·)).map Prio.int) :=
          (List.reverse_perm _).map Prio.int
        have p2 : List.Perm
            (((ks0.filterMap Prio.toIntOpt).insertionSort (· ≤ ·)).map Prio.int)
            ((ks0.filterMap Prio.toIntOpt).map Prio.int) :=
          (List.perm_insertionSort _ _).map Prio.int
        rw [filterMap_toIntOpt_map_int h2] at p2
        exact p1.trans p2
      · have hsorted : ((ks0.filterMap Prio.toIntOpt).insertionSort (· ≤ ·)).Pairwise
            (· ≤ ·) := List.sorted_insertionSort _ _
        have hrev : (((ks0.filterMap Prio.toIntOpt).insertionSort (· ≤ ·)).reverse).Pairwise
            (fun a b : Int => b ≤ a) := List.pairwise_reverse.2 hsorted
        rw [List.pairwise_map]
        refine hrev.imp ?_
        intro a b hba
        simp [prioLt, not_lt.2 hba]

theorem bucketsFor_spec {tokens : List String} {l : List Doc}
    {pg : List (Prio × Buckets)} (h : Inv tokens l pg) {k : Prio}
    (hk : k ∈ pg.map Prod.fst) :
    ∀ b, (bucketsFor pg k).slot b = groupFilter tokens l k b := by
  obtain ⟨e, he, hfst⟩ := List.mem_map.1 hk
  have hsome : (pg.find? (fun e => e.1 == k)).isSome := by
    rw [List.find?_isSome]
    exact ⟨e, he, by simp [hfst]⟩
  obtain ⟨e', hfind⟩ := Option.isSome_iff_exists.1 hsome
  have he'mem : e' ∈ pg := List.mem_of_find?_eq_some hfind
  have he'k : e'.1 = k := by simpa using List.find?_some hfind
  intro b
  rw [bucketsFor, hfind]
  rw [h.buckets e' he'mem b, he'k]

/-- The block of output records carrying priority `k`, in emission order. -/
def blockOf (tokens : List String) (docs : List Doc) (k : Prio) : List Doc :=
  groupFilter tokens docs k .both ++ groupFilter tokens docs k .titleOnly ++
    groupFilter tokens docs k .bodyOnly ++ groupFilter tokens docs k .neither

/-- Master structure theorem: a successful `rank` returns the concatenation,
over a duplicate-free priority-descending key list covering exactly the
surviving records' priorities, of the per-priority blocks, each block being
the four stable bucket filters in fixed order. -/
theorem rank_ok_eq {min_token_length : Int} {docs : List Doc} {query : String}
    {out : List Doc} (h : rank min_token_length docs query = .ok out) :
    ∃ ks : List Prio,
      ks.Nodup ∧
      (∀ p, p ∈ ks ↔ ∃ d, d ∈ docs ∧ survives d = true ∧ docPrio d = p) ∧
      ks.Pairwise (fun a b => prioLt a b = false) ∧
      out = (ks.map (blockOf (extract_tokens min_token_length query) docs)).flatten := by
  have hinv : Inv (extract_tokens min_token_length query) docs
      (docs.foldl (step (extract_tokens min_token_length query)) []) :=
    inv_rank _ docs
  simp only [rank] at h
  cases hsort : sortKeysDesc ((docs.foldl (step (extract_tokens min_token_length query))
      []).map Prod.fst) with
  | error e => rw [hsort] at h; simp at h
  | ok ks =>
    rw [hsort] at h
    simp only [Except.ok.injEq] at h
    obtain ⟨hperm, hpair⟩ := sortKeysDesc_ok hsort
    refine ⟨ks, ?_, ?_, hpair, ?_⟩
    · exact hperm.nodup_iff.2 hinv.nodup
    · intro p
      rw [hperm.mem_iff]
      exact hinv.mem_keys p
    · rw [← h]
      congr 1
      apply List.map_congr_left
      intro k hk
      have hkmem : k ∈ (docs.foldl (step (extract_tokens min_token_length query))
          []).map Prod.fst := hperm.mem_iff.1 hk
      have hspec := bucketsFor_spec hinv hkmem
      rw [Buckets.toList_eq_slots, hspec .both, hspec .titleOnly, hspec .bodyOnly,
        hspec .neither, blockOf]

/-! ### Ordering properties of the output -/

theorem prioLt_irrefl (k : Prio) : prioLt k k = false := by
  cases k <;> simp [prioLt]

theorem mem_blockOf {tokens : List String} {docs : List Doc} {k : Prio} {d : Doc} :
    d ∈ blockOf tokens docs k ↔ d ∈ docs ∧ survives d = true ∧ docPrio d = k := by
  simp only [blockOf, List.mem_append, mem_groupFilter]
  constructor
  · rintro (((⟨h1, h2, h3, _⟩ | ⟨h1, h2, h3, _⟩) | ⟨h1, h2, h3, _⟩) | ⟨h1, h2, h3, _⟩) <;>
      exact ⟨h1, h2, h3⟩
  · rintro ⟨h1, h2, h3⟩
    cases hb : docBucket tokens d
    · exact Or.inl (Or.inl (Or.inl ⟨h1, h2, h3, rfl⟩))
    · exact Or.inl (Or.inl (Or.inr ⟨h1, h2, h3, rfl⟩))
    · exact Or.inl (Or.inr ⟨h1, h2, h3, rfl⟩)
    · exact Or.inr ⟨h1, h2, h3, rfl⟩

/-- Within the whole output, a record never precedes a record of strictly
higher priority. -/
theorem rank_pairwise_prio {min_token_length : Int} {docs : List Doc} {query : String}
    {out : List Doc} (h : rank min_token_length docs query = .ok out) :
    out.Pairwise (fun a b => prioLt (docPrio a) (docPrio b) = false) := by
  obtain ⟨ks, hnd, hmem, hpair, hout⟩ := rank_ok_eq h
  subst hout
  rw [List.pairwise_flatten]
  constructor
  · intro l hl
    obtain ⟨k, hk, rfl⟩ := List.mem_map.1 hl
    apply List.pairwise_of_forall_mem_list
    intro a ha b hb
    rw [(mem_blockOf.1 ha).2.2, (mem_blockOf.1 hb).2.2]
    exact prioLt_irrefl k
  · rw [List.pairwise_map]
    refine hpair.imp ?_
    intro k1 k2 h12 x hx y hy
    rw [(mem_blockOf.1 hx).2.2, (mem_blockOf.1 hy).2.2]
    exact h12

theorem pairwise_append4 {α : Type _} {R : α → α → Prop} {A B C D : List α}
    (pA : A.Pairwise R) (pB : B.Pairwise R) (pC : C.Pairwise R) (pD : D.Pairwise R)
    (hAB : ∀ a ∈ A, ∀ b ∈ B, R a b) (hAC : ∀ a ∈ A, ∀ b ∈ C, R a b)
    (hAD : ∀ a ∈ A, ∀ b ∈ D, R a b) (hBC : ∀ a ∈ B, ∀ b ∈ C, R a b)
    (hBD : ∀ a ∈ B, ∀ b ∈ D, R a b) (hCD : ∀ a ∈ C, ∀ b ∈ D, R a b) :
    (A ++ B ++ C ++ D).Pairwise R := by
  simp only [List.pairwise_append, List.mem_append]
  exact ⟨⟨⟨pA, pB, hAB⟩, pC,
      fun a ha b hb => ha.elim (fun h' => hAC a h' b hb) (fun h' => hBC a h' b hb)⟩,
    pD, fun a ha b hb => ha.elim
      (fun h' => h'.elim (fun h'' => hAD a h'' b hb) (fun h'' => hBD a h'' b hb))
      (fun h' => hCD a h' b hb)⟩

theorem pairwise_block_idx (tokens : List String) (docs : List Doc) (k : Prio) :
    (blockOf tokens docs k).Pairwise (fun a b =>
      bucketIdx (docBucket tokens a) ≤ bucketIdx (docBucket tokens b)) := by
  have hpart : ∀ b : Bucket, (groupFilter tokens docs k b).Pairwise (fun a c =>
      bucketIdx (docBucket tokens a) ≤ bucketIdx (docBucket tokens c)) := by
    intro b
    apply List.pairwise_of_forall_mem_list
    intro a ha c hc
    rw [(mem_groupFilter.1 ha).2.2.2, (mem_groupFilter.1 hc).2.2.2]
  have hcross : ∀ b1 b2 : Bucket, bucketIdx b1 ≤ bucketIdx b2 →
      ∀ a ∈ groupFilter tokens docs k b1, ∀ c ∈ groupFilter tokens docs k b2,
        bucketIdx (docBucket tokens a) ≤ bucketIdx (docBucket tokens c) := by
    intro b1 b2 hle a ha c hc
    rw [(mem_groupFilter.1 ha).2.2.2, (mem_groupFilter.1 hc).2.2.2]
    exact hle
  exact pairwise_append4 (hpart _) (hpart _) (hpart _) (hpart _)
    (hcross _ _ (by decide)) (hcross _ _ (by decide)) (hcross _ _ (by decide))
    (hcross _ _ (by decide)) (hcross _ _ (by decide)) (hcross _ _ (by decide))

/-- Within one priority tier, bucket positions are non-decreasing along the
output; across tiers the hypothesis of equal priorities is vacuous. -/
theorem rank_pairwise_bucket {min_token_length : Int} {docs : List Doc} {query : String}
    {out : List Doc} (h : rank min_token_length docs query = .ok out) :
    out.Pairwise (fun a b => docPrio a = docPrio b →
      bucketIdx (docBucket (extract_tokens min_token_length query) a) ≤
        bucketIdx (docBucket (extract_tokens min_token_length query) b)) := by
  obtain ⟨ks, hnd, hmem, hpair, hout⟩ := rank_ok_eq h
  subst hout
  rw [List.pairwise_flatten]
  constructor
  · intro l hl
    obtain ⟨k, hk, rfl⟩ := List.mem_map.1 hl
    have himp := pairwise_block_idx (extract_tokens min_token_length query) docs k
    refine himp.imp ?_
    intro a b hle
    exact fun _ => hle
  · rw [List.pairwise_map]
    have hne : ks.Pairwise (fun a b => a ≠ b) := hnd
    refine hne.imp ?_
    intro k1 k2 h12 x hx y hy hpeq
    exact absurd (((mem_blockOf.1 hx).2.2.symm.trans hpeq).trans (mem_blockOf.1 hy).2.2) h12

/-! ### Conservation: the output is a permutation of the survivors -/

theorem flatten_filter_partition {α κ : Type _} [DecidableEq κ] (key : α → κ) :
    ∀ (ks : List κ) (l : List α), ks.Nodup → (∀ d ∈ l, key d ∈ ks) →
      List.Perm ((ks.map (fun k => l.filter (fun d => decide (key d = k)))).flatten) l
  | [], l, _, hcov => by
    have : l = [] := by
      cases l with
      | nil => rfl
      | cons a t => exact absurd (hcov a (by simp)) (by simp)
    simp [this]
  | k :: t, l, hnd, hcov => by
    have hknt : k ∉ t := (List.nodup_cons.1 hnd).1
    have hnd' : t.Nodup := (List.nodup_cons.1 hnd).2
    have hblocks : ∀ k' ∈ t, l.filter (fun d => decide (key d = k')) =
        (l.filter (fun d => !decide (key d = k))).filter (fun d => decide (key d = k')) := by
      intro k' hk'
      rw [List.filter_filter]
      apply List.filter_congr
      intro d _
      by_cases h : key d = k'
      · have hne : key d ≠ k := by
          rw [h]; intro e; exact hknt (e ▸ hk')
        have hkk : k' ≠ k := fun e => hknt (e ▸ hk')
        simp [h, hne, hkk]
      · simp [h]
    have hcov' : ∀ d ∈ l.filter (fun d => !decide (key d = k)), key d ∈ t := by
      intro d hd
      obtain ⟨hdl, hdk⟩ := List.mem_filter.1 hd
      have := hcov d hdl
      simp at hdk
      simpa [hdk] using this
    have ih := flatten_filter_partition key t (l.filter (fun d => !decide (key d = k)))
      hnd' hcov'
    have heq1 : ((k :: t).map (fun k' => l.filter (fun d => decide (key d = k')))).flatten
        = l.filter (fun d => decide (key d = k)) ++
          (t.map (fun k' => (l.filter (fun d => !decide (key d = k))).filter
            (fun d => decide (key d = k')))).flatten := by
      simp only [List.map_cons, List.flatten_cons]
      rw [List.map_congr_left hblocks]
    rw [heq1]
    have step2 := List.Perm.append_left (l.filter (fun d => decide (key d = k))) ih
    exact step2.trans (List.filter_append_perm _ l)

theorem flatten_perm_of_forall₂ {α : Type _} :
    ∀ {L1 L2 : List (List α)}, List.Forall₂ (fun a b => List.Perm a b) L1 L2 →
      List.Perm L1.flatten L2.flatten
  | _, _, .nil => List.Perm.refl _
  | _, _, .cons h t => by
    simp only [List.flatten_cons]
    exact h.append (flatten_perm_of_forall₂ t)

theorem forall₂_perm_map {α κ : Type _} {l : List κ} {f g : κ → List α}
    (h : ∀ k ∈ l, List.Perm (f k) (g k)) :
    List.Forall₂ (fun a b => List.Perm a b) (l.map f) (l.map g) := by
  induction l with
  | nil => exact .nil
  | cons k t ih =>
    exact .cons (h k (by simp)) (ih (fun k' hk' => h k' (by simp [hk'])))

theorem groupFilter_eq_filter_filter (tokens : List String) (l : List Doc) (p : Prio)
    (b : Bucket) :
    groupFilter tokens l p b = (l.filter (fun d => survives d && decide (docPrio d = p))).filter
      (fun d => decide (docBucket tokens d = b)) := by
  rw [List.filter_filter]
  apply List.filter_congr
  intro d _
  show matchesPB tokens p b d = _
  rw [matchesPB]
  cases survives d <;> cases hp : decide (docPrio d = p) <;>
    cases hb : decide (docBucket tokens d = b) <;> simp [hp, hb]

/-- Each priority block is a permutation of the survivors carrying that
priority. -/
theorem blockOf_perm (tokens : List String) (docs : List Doc) (k : Prio) :
    List.Perm (blockOf tokens docs k)
      (docs.filter (fun d => survives d && decide (docPrio d = k))) := by
  have hpart := flatten_filter_partition (docBucket tokens)
    [Bucket.both, Bucket.titleOnly, Bucket.bodyOnly, Bucket.neither]
    (docs.filter (fun d => survives d && decide (docPrio d = k)))
    (by simp) (by intro d _; cases docBucket tokens d <;> simp)
  have heq : ([Bucket.both, Bucket.titleOnly, Bucket.bodyOnly, Bucket.neither].map
      (fun b => (docs.filter (fun d => survives d && decide (docPrio d = k))).filter
        (fun d => decide (docBucket tokens d = b)))).flatten = blockOf tokens docs k := by
    simp only [List.map_cons, List.map_nil, List.flatten_cons, List.flatten_nil,
      List.append_nil]
    rw [blockOf, groupFilter_eq_filter_filter, groupFilter_eq_filter_filter,
      groupFilter_eq_filter_filter, groupFilter_eq_filter_filter]
    simp [List.append_assoc]
  rw [← heq]
  exact hpart

/-- Conservation: a successful `rank` permutes exactly the surviving input
records. -/
theorem rank_perm {min_token_length : Int} {docs : List Doc} {query : String}
    {out : List Doc} (h : rank min_token_length docs query = .ok out) :
    List.Perm out (docs.filter (fun d => survives d)) := by
  obtain ⟨ks, hnd, hmem, hpair, hout⟩ := rank_ok_eq h
  subst hout
  have hstep1 : List.Perm
      ((ks.map (blockOf (extract_tokens min_token_length query) docs)).flatten)
      ((ks.map (fun k => (docs.filter (fun d => survives d)).filter
        (fun d => decide (docPrio d = k)))).flatten) := by
    apply flatten_perm_of_forall₂
    apply forall₂_perm_map
    intro k _
    have h1 := blockOf_perm (extract_tokens min_token_length query) docs k
    have h2 : docs.filter (fun d => survives d && decide (docPrio d = k)) =
        (docs.filter (fun d => survives d)).filter (fun d => decide (docPrio d = k)) := by
      rw [List.filter_filter]
      apply List.filter_congr
      intro d _
      cases survives d <;> cases hp : decide (docPrio d = k) <;> simp [hp]
    rw [h2] at h1
    exact h1
  refine hstep1.trans ?_
  apply flatten_filter_partition docPrio ks (docs.filter (fun d => survives d)) hnd
  intro d hd
  obtain ⟨hdl, hds⟩ := List.mem_filter.1 hd
  exact (hmem (docPrio d)).2 ⟨d, hdl, hds, rfl⟩

/-! ### Stability: filters of the output equal filters of the input -/

theorem filter_pb_groupFilter (tokens : List String) (docs : List Doc)
    (k : Prio) (b' : Bucket) (p : Prio) (b : Bucket) :
    (groupFilter tokens docs k b').filter
        (fun d => decide (docPrio d = p) && decide (docBucket tokens d = b)) =
      if k = p ∧ b' = b then groupFilter tokens docs p b else [] := by
  by_cases hk : k = p ∧ b' = b
  · obtain ⟨rfl, rfl⟩ := hk
    rw [if_pos ⟨rfl, rfl⟩]
    apply List.filter_eq_self.2
    intro d hd
    obtain ⟨_, _, h3, h4⟩ := mem_groupFilter.1 hd
    simp [h3, h4]
  · rw [if_neg hk, List.filter_eq_nil_iff]
    intro d hd hcon
    obtain ⟨_, _, h3, h4⟩ := mem_groupFilter.1 hd
    have hcon' : docPrio d = p ∧ docBucket tokens d = b := by
      simpa using hcon
    exact hk ⟨h3 ▸ hcon'.1, h4 ▸ hcon'.2⟩

theorem filter_p_groupFilter (tokens : List String) (docs : List Doc)
    (k : Prio) (b' : Bucket) (p : Prio) :
    (groupFilter tokens docs k b').filter (fun d => decide (docPrio d = p)) =
      if k = p then groupFilter tokens docs p b' else [] := by
  by_cases hk : k = p
  · subst hk
    rw [if_pos rfl]
    apply List.filter_eq_self.2
    intro d hd
    obtain ⟨_, _, h3, _⟩ := mem_groupFilter.1 hd
    simp [h3]
  · rw [if_neg hk, List.filter_eq_nil_iff]
    intro d hd hcon
    obtain ⟨_, _, h3, _⟩ := mem_groupFilter.1 hd
    exact hk (h3 ▸ (by simpa using hcon))

theorem flatten_map_ite {α : Type _} {ks : List Prio} (hnd : ks.Nodup)
    (v : List α) (p : Prio) :
    (ks.map (fun k => if k = p then v else [])).flatten =
      if p ∈ ks then v else [] := by
  induction ks with
  | nil => simp
  | cons k t ih =>
    obtain ⟨hk, ht⟩ := List.nodup_cons.1 hnd
    by_cases h : k = p
    · subst h
      have hrest : (t.map (fun k' => if k' = k then v else [])).flatten = [] := by
        rw [List.flatten_eq_nil_iff]
        intro l hl
        obtain ⟨k', hk', rfl⟩ := List.mem_map.1 hl
        have : k' ≠ k := fun e => hk (e ▸ hk')
        simp [this]
      simp [hrest]
    · have hne : ¬ p = k := fun e => h e.symm
      simp [h, ih ht, hne]

/-- Stability: the output's sub-sequence of a fixed priority and bucket is
exactly the corresponding filter of the input, in input order. -/
theorem rank_filter_pb {min_token_length : Int} {docs : List Doc} {query : String}
    {out : List Doc} (h : rank min_token_length docs query = .ok out)
    (p : Prio) (b : Bucket) :
    out.filter (fun d => decide (docPrio d = p) &&
        decide (docBucket (extract_tokens min_token_length query) d = b)) =
      groupFilter (extract_tokens min_token_length query) docs p b := by
  obtain ⟨ks, hnd, hmem, hpair, hout⟩ := rank_ok_eq h
  subst hout
  rw [List.filter_flatten, List.map_map]
  have hblock : ∀ k ∈ ks,
      (blockOf (extract_tokens min_token_length query) docs k).filter
        (fun d => decide (docPrio d = p) &&
          decide (docBucket (extract_tokens min_token_length query) d = b)) =
      (if k = p then groupFilter (extract_tokens min_token_length query) docs p b
        else []) := by
    intro k _
    rw [blockOf, List.filter_append, List.filter_append, List.filter_append,
      filter_pb_groupFilter, filter_pb_groupFilter, filter_pb_groupFilter,
      filter_pb_groupFilter]
    by_cases hk : k = p
    · subst hk
      cases b <;> simp
    · simp [hk]
  rw [show (ks.map (List.filter (fun d => decide (docPrio d = p) &&
      decide (docBucket (extract_tokens min_token_length query) d = b)) ∘
      blockOf (extract_tokens min_token_length query) docs)) =
    ks.map (fun k => if k = p
      then groupFilter (extract_tokens min_token_length query) docs p b else []) from
    List.map_congr_left hblock]
  rw [flatten_map_ite hnd]
  by_cases hp : p ∈ ks
  · rw [if_pos hp]
  · rw [if_neg hp]
    rw [eq_comm, groupFilter, List.filter_eq_nil_iff]
    intro d hd hcon
    have h1 : survives d = true ∧ docPrio d = p ∧
        docBucket (extract_tokens min_token_length query) d = b := by
      simpa [matchesPB, and_assoc] using hcon
    exact hp ((hmem p).2 ⟨d, hd, h1.1, h1.2.1⟩)

/-- When every survivor is classified into one constant bucket, the output
restricted to one priority is exactly the input restricted to that
priority (after exclusion). -/
theorem rank_filter_prio_const {min_token_length : Int} {docs : List Doc}
    {query : String} {out : List Doc} (h : rank min_token_length docs query = .ok out)
    (b0 : Bucket)
    (hb : ∀ d, survives d = true → docBucket (extract_tokens min_token_length query) d = b0)
    (p : Prio) :
    out.filter (fun d => decide (docPrio d = p)) =
      (docs.filter (fun d => survives d)).filter (fun d => decide (docPrio d = p)) := by
  obtain ⟨ks, hnd, hmem, hpair, hout⟩ := rank_ok_eq h
  subst hout
  rw [List.filter_flatten, List.map_map]
  have hgfnil : ∀ b', b' ≠ b0 →
      groupFilter (extract_tokens min_token_length query) docs p b' = [] := by
    intro b' hb'
    rw [groupFilter, List.filter_eq_nil_iff]
    intro d _ hcon
    have h1 : survives d = true ∧ docPrio d = p ∧
        docBucket (extract_tokens min_token_length query) d = b' := by
      simpa [matchesPB, and_assoc] using hcon
    exact hb' (h1.2.2 ▸ (hb d h1.1).symm ▸ rfl)
  have hgfb0 : groupFilter (extract_tokens min_token_length query) docs p b0 =
      (docs.filter (fun d => survives d)).filter (fun d => decide (docPrio d = p)) := by
    rw [groupFilter, List.filter_filter]
    apply List.filter_congr
    intro d _
    by_cases hs : survives d = true
    · simp [matchesPB, hs, hb d hs]
    · have hs' : survives d = false := by simpa using hs
      simp [matchesPB, hs']
  have hblock : ∀ k ∈ ks,
      (blockOf (extract_tokens min_token_length query) docs k).filter
        (fun d => decide (docPrio d = p)) =
      (if k = p then blockOf (extract_tokens min_token_length query) docs p else []) := by
    intro k _
    rw [blockOf, List.filter_append, List.filter_append, List.filter_append,
      filter_p_groupFilter, filter_p_groupFilter, filter_p_groupFilter,
      filter_p_groupFilter]
    by_cases hk : k = p
    · subst hk
      simp [blockOf]
    · simp [hk]
  rw [show (ks.map (List.filter (fun d => decide (docPrio d = p)) ∘
      blockOf (extract_tokens min_token_length query) docs)) =
    ks.map (fun k => if k = p
      then blockOf (extract_tokens min_token_length query) docs p else []) from
    List.map_congr_left hblock]
  rw [flatten_map_ite hnd]
  by_cases hp : p ∈ ks
  · rw [if_pos hp, blockOf]
    cases b0
    · rw [hgfnil Bucket.titleOnly (by decide), hgfnil Bucket.bodyOnly (by decide),
        hgfnil Bucket.neither (by decide), hgfb0]
      simp
    · rw [hgfnil Bucket.both (by decide), hgfnil Bucket.bodyOnly (by decide),
        hgfnil Bucket.neither (by decide), hgfb0]
      simp
    · rw [hgfnil Bucket.both (by decide), hgfnil Bucket.titleOnly (by decide),
        hgfnil Bucket.neither (by decide), hgfb0]
      simp
    · rw [hgfnil Bucket.both (by decide), hgfnil Bucket.titleOnly (by decide),
        hgfnil Bucket.bodyOnly (by decide), hgfb0]
      simp
  · rw [if_neg hp]
    rw [eq_comm, List.filter_eq_nil_iff]
    intro d hd hcon
    obtain ⟨hdl, hds⟩ := List.mem_filter.1 hd
    exact hp ((hmem p).2 ⟨d, hdl, hds, by simpa using hcon⟩)

/-! ### Tokenizer lemmas -/

theorem reSplitW_nil_eq : reSplitW ([] : List Char) = [[]] := rfl

theorem reSplitW_cons_word {c : Char} {t g : List Char} {gs : List (List Char)}
    (hc : wordChar c = true) (hres : reSplitW t = g :: gs) :
    reSplitW (c :: t) = (c :: g) :: gs := by
  simp [reSplitW, hc, hres]

theorem reSplitW_delim_nil {c : Char} (hc : wordChar c = false) :
    reSplitW [c] = [[], []] := by
  simp [reSplitW, hc]

theorem reSplitW_delim_word {a b : Char} {t : List Char} (ha : wordChar a = false)
    (hb : wordChar b = true) :
    reSplitW (a :: b :: t) = [] :: reSplitW (b :: t) := by
  simp [reSplitW, ha, hb]

theorem reSplitW_delim_delim {a b : Char} {t : List Char} (ha : wordChar a = false)
    (hb : wordChar b = false) :
    reSplitW (a :: b :: t) = reSplitW (b :: t) := by
  simp [reSplitW, ha, hb]

theorem reSplitW_ne_nil : ∀ l : List Char, reSplitW l ≠ [] := by
  intro l
  induction l with
  | nil => simp [reSplitW_nil_eq]
  | cons c cs ih =>
    by_cases hc : wordChar c = true
    · cases hres : reSplitW cs with
      | nil => exact absurd hres ih
      | cons g gs => rw [reSplitW_cons_word hc hres]; simp
    · have hc' : wordChar c = false := by simpa using hc
      cases cs with
      | nil => rw [reSplitW_delim_nil hc']; simp
      | cons b t =>
        by_cases hb : wordChar b = true
        · rw [reSplitW_delim_word hc' hb]; simp
        · have hb' : wordChar b = false := by simpa using hb
          rw [reSplitW_delim_delim hc' hb']
          exact ih

theorem reSplitW_eq_singleton_empty : ∀ l : List Char, reSplitW l = [[]] → l = [] := by
  intro l
  induction l with
  | nil => intro _; rfl
  | cons c cs ih =>
    intro hcon
    by_cases hc : wordChar c = true
    · cases hres : reSplitW cs with
      | nil => exact absurd hres (reSplitW_ne_nil cs)
      | cons g gs =>
        rw [reSplitW_cons_word hc hres] at hcon
        simp at hcon
    · have hc' : wordChar c = false := by simpa using hc
      cases cs with
      | nil => rw [reSplitW_delim_nil hc'] at hcon; simp at hcon
      | cons b t =>
        by_cases hb : wordChar b = true
        · rw [reSplitW_delim_word hc' hb] at hcon
          simp only [List.cons.injEq] at hcon
          exact absurd hcon.2 (reSplitW_ne_nil _)
        · have hb' : wordChar b = false := by simpa using hb
          rw [reSplitW_delim_delim hc' hb'] at hcon
          exact absurd (ih hcon) (by simp)

theorem reSplitW_head_empty : ∀ (cs : List Char) (c : Char), wordChar c = false →
    ∃ gs, reSplitW (c :: cs) = [] :: gs := by
  intro cs
  induction cs with
  | nil =>
    intro c hc
    exact ⟨[[]], by rw [reSplitW_delim_nil hc]⟩
  | cons b t ih =>
    intro c hc
    by_cases hb : wordChar b = true
    · exact ⟨reSplitW (b :: t), reSplitW_delim_word hc hb⟩
    · have hb' : wordChar b = false := by simpa using hb
      obtain ⟨gs, hgs⟩ := ih b hb'
      exact ⟨gs, by rw [reSplitW_delim_delim hc hb']; exact hgs⟩

theorem reSplitW_last_empty (c : Char) (hc : wordChar c = false) :
    ∀ l : List Char, ∃ gs, reSplitW (l ++ [c]) = gs ++ [[]] := by
  intro l
  induction l with
  | nil => exact ⟨[[]], by simpa using reSplitW_delim_nil hc⟩
  | cons a t ih =>
    obtain ⟨gs0, hgs0⟩ := ih
    by_cases ha : wordChar a = true
    · cases gs0 with
      | nil =>
        exfalso
        have h1 : reSplitW (t ++ [c]) = [[]] := by simpa using hgs0
        have := reSplitW_eq_singleton_empty _ h1
        simp at this
      | cons g0 gs0' =>
        have hform : reSplitW (t ++ [c]) = g0 :: (gs0' ++ [[]]) := by simpa using hgs0
        refine ⟨(a :: g0) :: gs0', ?_⟩
        rw [show (a :: t) ++ [c] = a :: (t ++ [c]) from rfl]
        rw [reSplitW_cons_word ha hform]
        simp
    · have ha' : wordChar a = false := by simpa using ha
      cases t with
      | nil =>
        refine ⟨[[]], ?_⟩
        rw [show ([a] ++ [c] : List Char) = a :: [c] from rfl]
        rw [reSplitW_delim_delim ha' hc, reSplitW_delim_nil hc]
        rfl
      | cons b t2 =>
        by_cases hb : wordChar b = true
        · refine ⟨[] :: gs0, ?_⟩
          rw [show ((a :: b :: t2) ++ [c]) = a :: (b :: (t2 ++ [c])) from rfl]
          rw [reSplitW_delim_word ha' hb]
          rw [show reSplitW (b :: (t2 ++ [c])) = gs0 ++ [[]] from hgs0]
          rfl
        · have hb' : wordChar b = false := by simpa using hb
          refine ⟨gs0, ?_⟩
          rw [show ((a :: b :: t2) ++ [c]) = a :: (b :: (t2 ++ [c])) from rfl]
          rw [reSplitW_delim_delim ha' hb']
          exact hgs0

/-- A non-word character stays non-word under `Char.toLower` (lowering only
moves upper-case letters, which are word characters). -/
theorem wordChar_toLower_eq_false {c : Char} (h : wordChar c = false) :
    wordChar (Char.toLower c) = false := by
  have hU : c.isUpper = false := by
    cases hiu : c.isUpper
    · rfl
    · have halpha : c.isAlphanum = true := by
        simp [Char.isAlphanum, Char.isAlpha, hiu]
      rw [wordChar, halpha] at h
      simp at h
  have heq : Char.toLower c = c := by
    unfold Char.toLower
    rw [if_neg]
    intro hcon
    have hup : c.isUpper = true := by
      rw [Char.isUpper, Bool.and_eq_true]
      exact ⟨decide_eq_true hcon.1, decide_eq_true hcon.2⟩
    rw [hup] at hU
    exact Bool.noConfusion hU
  rw [heq]
  exact h

/-- Boundary condition on a query: empty, or beginning or ending with a
non-word character. -/
def delimBoundary (q : String) : Prop :=
  q.data = [] ∨ (∃ c cs, q.data = c :: cs ∧ wordChar c = false) ∨
    (∃ cs c, q.data = cs ++ [c] ∧ wordChar c = false)

theorem empty_mem_tokensOf {q : String} (hq : delimBoundary q) :
    "" ∈ tokensOf q := by
  have key : [] ∈ reSplitW ((pyLower q).data) := by
    have hdata : (pyLower q).data = q.data.map Char.toLower := rfl
    rcases hq with h0 | ⟨c, cs, hqd, hc⟩ | ⟨cs, c, hqd, hc⟩
    · rw [hdata, h0]
      simp [reSplitW_nil_eq]
    · rw [hdata, hqd, List.map_cons]
      obtain ⟨gs, hgs⟩ := reSplitW_head_empty (cs.map Char.toLower) (Char.toLower c)
        (wordChar_toLower_eq_false hc)
      rw [hgs]
      simp
    · rw [hdata, hqd, List.map_append, List.map_cons, List.map_nil]
      obtain ⟨gs, hgs⟩ := reSplitW_last_empty (Char.toLower c)
        (wordChar_toLower_eq_false hc) (cs.map Char.toLower)
      rw [hgs]
      simp
  rw [tokensOf, List.mem_map]
  exact ⟨[], key, rfl⟩

theorem empty_mem_extract_tokens {min_token_length : Int}
    (hmin : min_token_length ≤ 0) {q : String} (hq : delimBoundary q) :
    "" ∈ extract_tokens min_token_length q := by
  rw [extract_tokens, List.mem_dedup, List.mem_filter]
  refine ⟨empty_mem_tokensOf hq, ?_⟩
  simpa using hmin

theorem strContains_empty_needle (hay : String) : strContains hay "" = true := by
  rw [strContains]
  cases hd : hay.data with
  | nil => rfl
  | cons c cs => simp [listContains, List.isPrefixOf]

theorem docBucket_both_of_empty {tokens : List String} (h : "" ∈ tokens) (d : Doc) :
    docBucket tokens d = .both := by
  have hany : ∀ text, has_any_token text tokens = true := by
    intro text
    rw [has_any_token, List.any_eq_true]
    exact ⟨"", h, strContains_empty_needle _⟩
  simp [docBucket, hany]

theorem docBucket_neither_of_nil (d : Doc) : docBucket [] d = .neither := rfl

/-! ### Naver post-processing -/

/-- The keep condition stated by the specification: non-empty `href` and
`title`, no ad link, no internal search link. -/
def naverKeep_spec (r : TextResult) : Bool :=
  !(r.href == "") && !(r.title == "") && !(strContains r.href "searchad.naver.com") &&
    !(r.href.startsWith "https://search.naver.com/search.naver")

/-- The cleanup stated by the specification: collapse the whitespace runs of
a non-empty `body`; every other field unchanged. -/
def naverClean_spec (r : TextResult) : TextResult :=
  if r.body == "" then r else { r with body := collapseWs r.body }

theorem post_extract_aux (results : List TextResult) :
    ∀ acc : List TextResult,
      results.foldl (fun post r =>
        if r.href == "" || r.title == "" then post
        else if strContains r.href "searchad.naver.com" then post
        else if r.href.startsWith "https://search.naver.com/search.naver" then post
        else post ++ [if r.body == "" then r else { r with body := collapseWs r.body }]) acc
      = acc ++ (results.filter naverKeep_spec).map naverClean_spec := by
  induction results with
  | nil => intro acc; simp
  | cons r t ih =>
    intro acc
    simp only [List.foldl_cons]
    by_cases h1 : (r.href == "" || r.title == "") = true
    · rw [if_pos h1, ih]
      have hk : naverKeep_spec r = false := by
        rcases (by simpa using h1 : (r.href == "") = true ∨ (r.title == "") = true)
          with h | h <;> simp [naverKeep_spec, h]
      simp [List.filter_cons, hk]
    · rw [if_neg h1]
      by_cases h2 : strContains r.href "searchad.naver.com" = true
      · rw [if_pos h2, ih]
        have hk : naverKeep_spec r = false := by simp [naverKeep_spec, h2]
        simp [List.filter_cons, hk]
      · rw [if_neg h2]
        by_cases h3 : r.href.startsWith "https://search.naver.com/search.naver" = true
        · rw [if_pos h3, ih]
          have hk : naverKeep_spec r = false := by simp [naverKeep_spec, h3]
          simp [List.filter_cons, hk]
        · rw [if_neg h3, ih]
          have hno : (r.href == "") = false ∧ (r.title == "") = false := by
            simpa using h1
          have hk : naverKeep_spec r = true := by
            simp [naverKeep_spec, hno.1, hno.2,
              (by simpa using h2 : strContains r.href "searchad.naver.com" = false),
              (by simpa using h3 :
                r.href.startsWith "https://search.naver.com/search.naver" = false)]
          rw [List.filter_cons, if_pos hk]
          simp [naverClean_spec]

/-- The engine cleanup loop is exactly a keep-filter followed by a per-record
body cleanup, preserving order. -/
theorem post_extract_results_eq (results : List TextResult) :
    post_extract_results results = (results.filter naverKeep_spec).map naverClean_spec := by
  rw [post_extract_results]
  simpa using post_extract_aux results []

theorem naverClean_spec_preserves (r : TextResult) :
    (naverClean_spec r).href = r.href ∧ (naverClean_spec r).title = r.title := by
  rw [naverClean_spec]
  by_cases h : (r.body == "") = true <;> simp [h]

/-! ### Sample records for witnesses and counterexamples -/

/-- A surviving record of priority 1 (with an unknown pass-through field). -/
def dLow : Doc :=
  ⟨some "Alpha", some "alpha body", none, some "a", some (.int 1),
    [("engine_name", "bing")]⟩

/-- A surviving record of priority 2. -/
def dHigh : Doc := ⟨some "Beta", some "beta body", none, some "b", some (.int 2), []⟩

/-- A record excluded by the Wikimedia-category rule, despite priority 5. -/
def dWiki : Doc :=
  ⟨some "Category:Maps Wikimedia", some "maps", none, some "w", some (.int 5), []⟩

/-- A priority-1 record whose body matches the query `"python"`. -/
def dBodyHit : Doc :=
  ⟨some "qqq", some "great python stuff", none, some "c7", some (.int 1), []⟩

/-- A priority-1 record with an empty `body` value and a matching
`description`. -/
def dEmptyBody : Doc := ⟨some "zzz", some "", some "python", some "c6", some (.int 1), []⟩

/-- A record carrying a null `engine_priority` value. -/
def dNullPrio : Doc := ⟨some "N", some "x", none, some "n", some Prio.null, []⟩

/-- A record with no `engine_priority` key. -/
def dNoPrio : Doc := ⟨some "M", some "x", none, some "m", none, []⟩

/-! ### The claims -/

/-- Claim C1: in any successful output of `rank`, for any two output
positions, the earlier record never has a source priority strictly lower
than the later one — records of strictly greater priority always precede
records of lower priority, regardless of text content. -/
theorem c1_priority_order (min_token_length : Int) (docs : List Doc) (query : String)
    (out : List Doc) (h : rank min_token_length docs query = .ok out)
    (i j : Nat) (hi : i < out.length) (hj : j < out.length) (hij : i < j) :
    prioLt (docPrio out[i]) (docPrio out[j]) = false :=
  List.pairwise_iff_getElem.1 (rank_pairwise_prio h) i j hi hj hij

theorem c1_priority_order_witness : prioLt (docPrio dHigh) (docPrio dLow) = false :=
  c1_priority_order 3 [dLow, dHigh] "" [dHigh, dLow] rfl 0 1 (by decide) (by decide)
    (by decide)

/-- Claim C2: among output records of equal priority, buckets appear in the
fixed order `both, titleOnly, bodyOnly, neither`; and for each priority and
bucket, the output restricted to that priority and bucket equals the input
restricted to it (surviving records only), i.e. the partition is stable. -/
theorem c2_bucket_order_and_stability (min_token_length : Int) (docs : List Doc)
    (query : String) (out : List Doc) (h : rank min_token_length docs query = .ok out) :
    (∀ (i j : Nat) (hi : i < out.length) (hj : j < out.length), i < j →
      docPrio out[i] = docPrio out[j] →
      bucketIdx (docBucket (extract_tokens min_token_length query) out[i]) ≤
        bucketIdx (docBucket (extract_tokens min_token_length query) out[j])) ∧
    (∀ (p : Prio) (b : Bucket),
      out.filter (fun d => decide (docPrio d = p) &&
        decide (docBucket (extract_tokens min_token_length query) d = b)) =
      docs.filter (fun d => survives d && decide (docPrio d = p) &&
        decide (docBucket (extract_tokens min_token_length query) d = b))) := by
  constructor
  · intro i j hi hj hij
    exact List.pairwise_iff_getElem.1 (rank_pairwise_bucket h) i j hi hj hij
  · intro p b
    exact rank_filter_pb h p b

theorem c2_bucket_order_and_stability_witness :
    bucketIdx (docBucket (extract_tokens 3 "python") dBodyHit) ≤
      bucketIdx (docBucket (extract_tokens 3 "python") dEmptyBody) :=
  (c2_bucket_order_and_stability 3 [dEmptyBody, dBodyHit] "python"
    [dBodyHit, dEmptyBody] rfl).1 0 1 (by decide) (by decide) (by decide) (by decide)

/-- Claim C3: a successful output of `rank` is a permutation of exactly the
input records that survive the Wikimedia-category exclusion (records are
moved whole, so no field — known or unknown — is altered), and its length is
the input length minus the number of excluded records. -/
theorem c3_conservation (min_token_length : Int) (docs : List Doc) (query : String)
    (out : List Doc) (h : rank min_token_length docs query = .ok out) :
    List.Perm out (docs.filter (fun d => survives d)) ∧
    out.length = docs.length - (docs.filter (fun d => !survives d)).length := by
  refine ⟨rank_perm h, ?_⟩
  have hlen := (rank_perm h).length_eq
  have hsplit := (List.filter_append_perm (fun d => survives d) docs).length_eq
  rw [List.length_append] at hsplit
  omega

theorem c3_conservation_witness :
    List.Perm [dHigh, dLow] ([dLow, dHigh].filter (fun d => survives d)) ∧
    ([dHigh, dLow] : List Doc).length =
      ([dLow, dHigh] : List Doc).length -
        ([dLow, dHigh].filter (fun d => !survives d)).length :=
  c3_conservation 3 [dLow, dHigh] "" [dHigh, dLow] rfl

/-- Claim C4: a record whose title contains both `"Category:"` and
`"Wikimedia"` (case-sensitive substrings) never appears in a successful
output of `rank`, for every query, minimum token length and priority. -/
theorem c4_wikimedia_exclusion (min_token_length : Int) (docs : List Doc)
    (query : String) (out : List Doc) (h : rank min_token_length docs query = .ok out)
    (d : Doc) (hd : d ∈ out) :
    (strContains (docTitle d) "Category:" && strContains (docTitle d) "Wikimedia")
      = false := by
  have hmem : d ∈ docs.filter (fun d => survives d) := (rank_perm h).mem_iff.1 hd
  have hsv : survives d = true := (List.mem_filter.1 hmem).2
  cases hx : (strContains (docTitle d) "Category:" && strContains (docTitle d) "Wikimedia")
  · rfl
  · rw [survives, hx] at hsv
    simp at hsv

theorem c4_wikimedia_exclusion_witness :
    (strContains (docTitle dLow) "Category:" && strContains (docTitle dLow) "Wikimedia")
      = false :=
  c4_wikimedia_exclusion 3 [dWiki, dLow] "" [dLow] rfl dLow (by decide)

/-- Claim C5 counterexample: with the empty query and two surviving records
of distinct priorities, `rank` reorders by priority, so the output is not
the surviving candidates in their original input order. -/
theorem c5_counterexample :
    rank 3 [dLow, dHigh] "" = .ok [dHigh, dLow] ∧
    [dLow, dHigh].filter (fun d => survives d) = [dLow, dHigh] ∧
    [dHigh, dLow] ≠ [dLow, dHigh] :=
  ⟨rfl, rfl, by decide⟩

/-- Claim C5 amended: a query whose extracted term set is empty (the empty
query, or any all-delimiter or all-short-token query) yields the surviving
candidates grouped by priority descending; within each priority group the
original relative input order is preserved, so the whole output equals the
input order exactly when all surviving candidates share one priority. -/
theorem c5_amended (min_token_length : Int) (docs : List Doc) (query : String)
    (out : List Doc) (htok : extract_tokens min_token_length query = [])
    (h : rank min_token_length docs query = .ok out) :
    (∀ p : Prio, out.filter (fun d => decide (docPrio d = p)) =
      (docs.filter (fun d => survives d)).filter (fun d => decide (docPrio d = p))) ∧
    out.Pairwise (fun a b => prioLt (docPrio a) (docPrio b) = false) := by
  constructor
  · intro p
    refine rank_filter_prio_const h Bucket.neither ?_ p
    intro d _
    rw [htok]
    exact docBucket_neither_of_nil d
  · exact rank_pairwise_prio h

theorem c5_amended_witness :
    [dHigh, dLow].filter (fun d => decide (docPrio d = Prio.int 2)) =
      ([dLow, dHigh].filter (fun d => survives d)).filter
        (fun d => decide (docPrio d = Prio.int 2)) :=
  (c5_amended 3 [dLow, dHigh] "" [dHigh, dLow] rfl rfl).1 (Prio.int 2)

/-- The effective body text the specification describes for C6: the `body`
field when present and non-empty, otherwise the `description` field when
present, otherwise the empty string. -/
def effectiveBody_spec (d : Doc) : String :=
  match d.body? with
  | some b => if b = "" then d.description?.getD "" else b
  | none => d.description?.getD ""

/-- Claim C6 counterexample: a record whose `body` value is the empty string
and whose `description` is `"python"` is classified from the empty string,
not from its description — the code falls back to `description` only when
the `body` key is absent.  Under the claim the record would be `bodyOnly`
and (stably) precede `dBodyHit`; the code classifies it `neither` and emits
it after `dBodyHit`. -/
theorem c6_counterexample :
    docBody dEmptyBody = "" ∧ dEmptyBody.description? = some "python" ∧
    effectiveBody_spec dEmptyBody = "python" ∧
    docBucket (extract_tokens 3 "python") dEmptyBody = Bucket.neither ∧
    rank 3 [dEmptyBody, dBodyHit] "python" = .ok [dBodyHit, dEmptyBody] :=
  ⟨rfl, rfl, rfl, rfl, rfl⟩

/-- Claim C6 amended: the effective body used for classification is the
`body` value whenever the `body` key is present — even when it is the empty
string — and falls back to `description` (else the empty string) only when
the `body` key is absent. -/
theorem c6_amended (d : Doc) :
    (∀ b, d.body? = some b → docBody d = b) ∧
    (∀ s, d.body? = none → d.description? = some s → docBody d = s) ∧
    (d.body? = none → d.description? = none → docBody d = "") := by
  refine ⟨?_, ?_, ?_⟩
  · intro b hb
    simp [docBody, hb]
  · intro s hb hs
    simp [docBody, hb, hs]
  · intro hb hs
    simp [docBody, hb, hs]

theorem c6_amended_witness : docBody dEmptyBody = "" :=
  (c6_amended dEmptyBody).1 "" rfl

/-- Claim C7 counterexample: a null `engine_priority` is not treated as the
default 1 — grouped under its own `None` key, it makes the final
`sorted(priority_groups.keys(), reverse=True)` compare `None` with a number
and raise `TypeError` (modelled as `Except.error`), so `rank` is not total
and null is observably distinct from 1. -/
theorem c7_counterexample : rank 3 [dNullPrio, dNoPrio] "x" = .error () := rfl

/-- Claim C7 amended: a record's missing `title`, `href`, `body`/
`description` fields are read as the empty string and a missing
`engine_priority` as the default 1, and `rank` never raises on inputs none
of whose records carries a null priority value; a null priority is kept as
a distinct key and raises when sorted against another key. -/
theorem c7_amended (min_token_length : Int) (docs : List Doc) (query : String)
    (hnull : ∀ d ∈ docs, d.engine_priority? ≠ some Prio.null) :
    (∃ out, rank min_token_length docs query = .ok out) ∧
    (∀ d : Doc, d.title? = none → docTitle d = "") ∧
    (∀ d : Doc, d.href? = none → docHref d = "") ∧
    (∀ d : Doc, d.body? = none → d.description? = none → docBody d = "") ∧
    (∀ d : Doc, d.engine_priority? = none → docPrio d = Prio.int 1) := by
  refine ⟨?_, ?_, ?_, ?_, ?_⟩
  · have hinv := inv_rank (extract_tokens min_token_length query) docs
    have hnl : Prio.null ∉
        (docs.foldl (step (extract_tokens min_token_length query)) []).map Prod.fst := by
      intro hmem
      obtain ⟨d, hd, _, hp⟩ := (hinv.mem_keys Prio.null).1 hmem
      rw [docPrio] at hp
      cases hdp : d.engine_priority? with
      | none => rw [hdp] at hp; simp at hp
      | some pr =>
        rw [hdp] at hp
        simp at hp
        exact hnull d hd (by rw [hdp, hp])
    rcases hsor : sortKeysDesc
        ((docs.foldl (step (extract_tokens min_token_length query)) []).map Prod.fst)
      with e | ks
    · exfalso
      rw [sortKeysDesc] at hsor
      by_cases hl : ((docs.foldl (step (extract_tokens min_token_length query))
          []).map Prod.fst).length ≤ 1
      · rw [if_pos hl] at hsor; simp at hsor
      · rw [if_neg hl, if_neg hnl] at hsor; simp at hsor
    · refine ⟨(ks.map (fun k => (bucketsFor
        (docs.foldl (step (extract_tokens min_token_length query)) []) k).toList)).flatten,
          ?_⟩
      simp only [rank]
      rw [hsor]
  · intro d hd
    simp [docTitle, hd]
  · intro d hd
    simp [docHref, hd]
  · intro d hb hs
    simp [docBody, hb, hs]
  · intro d hp
    simp [docPrio, hp]

theorem c7_amended_witness : ∃ out, rank 3 [dLow] "x" = .ok out :=
  (c7_amended 3 [dLow] "x" (by decide)).1

/-- Claim C8: `extract_tokens` returns a deduplicated set of the tokens of
the lower-cased query split on non-word runs, keeping exactly those of
length at least `min_token_length`; the empty query at the default minimum
and any query all of whose raw tokens are too short yield the empty set. -/
theorem c8_extract_tokens (min_token_length : Int) (query : String) :
    (extract_tokens min_token_length query).Nodup ∧
    (∀ t ∈ extract_tokens min_token_length query,
      min_token_length ≤ (t.length : Int) ∧ t ∈ tokensOf query) ∧
    (∀ t ∈ tokensOf query, min_token_length ≤ (t.length : Int) →
      t ∈ extract_tokens min_token_length query) ∧
    extract_tokens 3 "" = [] ∧
    ((∀ t ∈ tokensOf query, (t.length : Int) < min_token_length) →
      extract_tokens min_token_length query = []) := by
  refine ⟨List.nodup_dedup _, ?_, ?_, rfl, ?_⟩
  · intro t ht
    rw [extract_tokens, List.mem_dedup, List.mem_filter] at ht
    exact ⟨by simpa using ht.2, ht.1⟩
  · intro t ht hlen
    rw [extract_tokens, List.mem_dedup, List.mem_filter]
    exact ⟨ht, by simpa using hlen⟩
  · intro hall
    rw [extract_tokens]
    have hnil : (tokensOf query).filter
        (fun t => decide (min_token_length ≤ (t.length : Int))) = [] := by
      rw [List.filter_eq_nil_iff]
      intro t ht hcon
      have h1 := hall t ht
      have h2 : min_token_length ≤ (t.length : Int) := by simpa using hcon
      omega
    rw [hnil]
    rfl

theorem c8_extract_tokens_witness : "hello" ∈ extract_tokens 3 "Hello, gw!" :=
  (c8_extract_tokens 3 "Hello, gw!").2.2.1 "hello" (by decide) (by decide)

/-- Claim C9: `post_extract_results` keeps exactly the results with
non-empty `href` and `title` whose `href` neither contains the ad host nor
starts with the internal search URL, in input order; each kept result's
non-empty `body` has its whitespace runs collapsed to single spaces, and no
other field changes. -/
theorem c9_naver_post_extract (results : List TextResult) :
    post_extract_results results = (results.filter naverKeep_spec).map naverClean_spec ∧
    (∀ r : TextResult, (naverClean_spec r).href = r.href ∧
      (naverClean_spec r).title = r.title) ∧
    (∀ r : TextResult, r.body = "" → naverClean_spec r = r) ∧
    (∀ r : TextResult, (naverClean_spec r).body = collapseWs r.body ∨
      (r.body = "" ∧ (naverClean_spec r).body = r.body)) := by
  refine ⟨post_extract_results_eq results, naverClean_spec_preserves, ?_, ?_⟩
  · intro r hr
    simp [naverClean_spec, hr]
  · intro r
    by_cases hr : (r.body == "") = true
    · exact Or.inr ⟨by simpa using hr, by simp [naverClean_spec, hr]⟩
    · exact Or.inl (by simp [naverClean_spec, hr])

theorem c9_naver_post_extract_witness :
    naverClean_spec ⟨"t", "https://x.com", ""⟩ = ⟨"t", "https://x.com", ""⟩ :=
  (c9_naver_post_extract []).2.2.1 ⟨"t", "https://x.com", ""⟩ rfl

/-- Claim C10: when `min_token_length` is zero or negative and the query is
empty or begins or ends with a non-word character, the extracted token set
contains the empty string; the empty string is a substring of every text,
so every record is classified into the `both` bucket and, within each
priority group, a successful output of `rank` keeps exactly the input
order — relevance bucketing has no effect. -/
theorem c10_zero_min_token (min_token_length : Int) (hmin : min_token_length ≤ 0)
    (query : String) (hq : delimBoundary query) :
    "" ∈ extract_tokens min_token_length query ∧
    (∀ d : Doc, docBucket (extract_tokens min_token_length query) d = Bucket.both) ∧
    (∀ (docs out : List Doc), rank min_token_length docs query = .ok out →
      ∀ p : Prio, out.filter (fun d => decide (docPrio d = p)) =
        (docs.filter (fun d => survives d)).filter
          (fun d => decide (docPrio d = p))) := by
  have hmem := empty_mem_extract_tokens hmin hq
  refine ⟨hmem, fun d => docBucket_both_of_empty hmem d, ?_⟩
  intro docs out h p
  exact rank_filter_prio_const h Bucket.both (fun d _ => docBucket_both_of_empty hmem d) p

theorem c10_zero_min_token_witness :
    "" ∈ extract_tokens 0 " " ∧ docBucket (extract_tokens 0 " ") dLow = Bucket.both := by
  have h := c10_zero_min_token 0 (by decide) " " (Or.inr (Or.inl ⟨' ', [], rfl, by decide⟩))
  exact ⟨h.1, h.2.1 dLow⟩

end DDGS
